import Mathlib

set_option maxRecDepth 4000

/-!
Verification of the cheque amount formatter (`tools/cheque.py`).

The file embeds the parser (`_parse_amount` on top of Python `Decimal`),
the range check (`_ensure_supported_range`), the Traditional-Chinese and
English numeral expanders (`_to_trad_chinese_upper`, `_to_english_hk`),
the composers (`_format_zh_amount`, `_to_zh_cents`, `_format_en_amount`)
and the CLI callback (`cheque`), and proves the behavioural properties
stated about them.

Strings are modelled by Lean `String` (a wrapper around `List Char`);
Python string helpers (`str.strip`, `str.replace(",", "")`) are embedded
as character-list transformations.  Python `Decimal` values are embedded
as sign / coefficient / exponent triples with exact rational semantics.
-/

/-! ## Python string helpers -/

/-- The whitespace characters stripped by Python `str.strip()` (the ASCII
ones; inputs here never contain the further Unicode space characters). -/
def isSpaceChar (c : Char) : Bool :=
  c == ' ' || c == '\t' || c == '\n' || c == '\r' || c == '\x0b' || c == '\x0c'

/-- Drop leading whitespace. -/
def trimLeftChars (l : List Char) : List Char := l.dropWhile isSpaceChar

/-- Drop trailing whitespace. -/
def trimRightChars (l : List Char) : List Char := (trimLeftChars l.reverse).reverse

/-- Python `str.strip()` on a character list: drop surrounding whitespace. -/
def stripChars (l : List Char) : List Char := trimRightChars (trimLeftChars l)

/-- Python `raw.strip()`. -/
def pyStrip (s : String) : String := ⟨stripChars s.data⟩

/-- Python `text.replace(",", "")` on a character list. -/
def removeCommasChars (l : List Char) : List Char := l.filter (fun c => c != ',')

/-- Python `text.replace(",", "")`. -/
def removeCommas (s : String) : String := ⟨removeCommasChars s.data⟩

/-! ## The `Decimal` model

A parsed Python `Decimal` is a sign, an integer coefficient and a base-10
exponent (`value = ±coeff · 10^exp`), or one of the special values. -/

inductive DecValue where
  | finite (neg : Bool) (coeff : Nat) (exp : Int)
  | infinite (neg : Bool)
  | nan
deriving DecidableEq

/-- The exact rational value of a finite `Decimal` (0 for the special
values, which are never compared numerically by the code under test). -/
def decValQ : DecValue → ℚ
  | .finite neg c e => (if neg then (-1 : ℚ) else 1) * (c : ℚ) * (10 : ℚ) ^ (e : ℤ)
  | .infinite _ => 0
  | .nan => 0

def isAsciiDigit (c : Char) : Bool := c.isDigit

/-- Numeric value of a list of ASCII digits (most significant first). -/
def digitsToNat (l : List Char) : Nat := l.foldl (fun a c => a * 10 + (c.toNat - 48)) 0

/-- An optionally signed, non-empty, all-digit exponent field. -/
def parseSignedDigits (l : List Char) : Option Int :=
  match l with
  | '-' :: t => if t ≠ [] ∧ t.all isAsciiDigit then some (-(digitsToNat t : Int)) else none
  | '+' :: t => if t ≠ [] ∧ t.all isAsciiDigit then some ((digitsToNat t : Int)) else none
  | t => if t ≠ [] ∧ t.all isAsciiDigit then some ((digitsToNat t : Int)) else none

/-- The numeric alternative of the `Decimal` string grammar
(`\d*(\.\d*)?([eE][-+]?\d+)?` with at least one digit before the
exponent): returns coefficient and exponent. -/
def parseNumeric (l : List Char) : Option (Nat × Int) :=
  let intds := l.takeWhile isAsciiDigit
  let r1 := l.dropWhile isAsciiDigit
  let p :=
    match r1 with
    | '.' :: t => (t.takeWhile isAsciiDigit, t.dropWhile isAsciiDigit)
    | _ => (([] : List Char), r1)
  let fracds := p.1
  let r2 := p.2
  if intds = [] ∧ fracds = [] then none
  else
    match r2 with
    | [] => some (digitsToNat (intds ++ fracds), -(fracds.length : Int))
    | c :: t =>
      if c = 'e' ∨ c = 'E' then
        match parseSignedDigits t with
        | some ex => some (digitsToNat (intds ++ fracds), ex - fracds.length)
        | none => none
      else none

def lowerChars (l : List Char) : List Char := l.map Char.toLower

/-- The `Infinity` alternative of the `Decimal` grammar (case-insensitive). -/
def matchesInfinity (l : List Char) : Bool :=
  lowerChars l == "inf".data || lowerChars l == "infinity".data

/-- The `NaN` / `sNaN` alternative (optional digit payload, case-insensitive). -/
def matchesNaN (l : List Char) : Bool :=
  match lowerChars l with
  | 'n' :: 'a' :: 'n' :: t => t.all isAsciiDigit
  | 's' :: 'n' :: 'a' :: 'n' :: t => t.all isAsciiDigit
  | _ => false

/-- The `Decimal` numeric-string grammar after whitespace/underscore
removal: optional sign, then a numeric literal, `Infinity` or `NaN`. -/
def decNumCore (l : List Char) : Option DecValue :=
  let p :=
    match l with
    | '-' :: t => (true, t)
    | '+' :: t => (false, t)
    | t => (false, t)
  let neg := p.1
  let rest := p.2
  match parseNumeric rest with
  | some ce => some (.finite neg ce.1 ce.2)
  | none =>
    if matchesInfinity rest then some (.infinite neg)
    else if matchesNaN rest then some .nan
    else none

/-- Python `Decimal(text)`: the constructor strips surrounding whitespace
and removes underscores before matching the numeric-string grammar;
`none` models the `InvalidOperation` raised on a malformed literal. -/
def decimalOfChars (l : List Char) : Option DecValue :=
  decNumCore ((stripChars l).filter (fun c => c != '_'))

/-! ## The parser (`_parse_amount` and friends) -/

/-- How a run of the `cheque` command can fail: `badParameter` models
`typer.BadParameter` (a usage error), `invalidOperation` an uncaught
`decimal.InvalidOperation`, `valueError` an uncaught `ValueError`. -/
inductive ChequeErr where
  | badParameter (msg : String)
  | invalidOperation
  | valueError (msg : String)
deriving DecidableEq

/-- Python `amount.quantize(Decimal("0.01"))` followed by
`int((quantized * 100).to_integral_value())`, on a non-negative finite
value `coeff · 10^exp`: round half-to-even to an integer number of
hundredths.  `Decimal.quantize` raises `InvalidOperation` (the `.error`
branch) when the resulting coefficient has more digits than the context
precision of 28; all arithmetic on the surviving values is exact. -/
def quantizeMinor (coeff : Nat) (exp : Int) : Except Unit Nat :=
  if -2 ≤ exp then
    let m := coeff * 10 ^ (exp + 2).toNat
    if 10 ^ 28 ≤ m then .error () else .ok m
  else
    let k := (-2 - exp).toNat
    let q := coeff / 10 ^ k
    let r := coeff % 10 ^ k
    let rounded := q + (if 10 ^ k < 2 * r ∨ (2 * r = 10 ^ k ∧ q % 2 = 1) then 1 else 0)
    if 10 ^ 28 ≤ rounded then .error () else .ok rounded

/-- The comparison `amount < 0`: a `Decimal` is negative exactly when its
sign is set and its coefficient is non-zero (`Decimal("-0")` is not
negative).  `decNeg_iff` proves this against the rational semantics. -/
def decNeg (neg : Bool) (coeff : Nat) : Bool :=
  neg && coeff != 0

/-- The comparison `amount != quantized` for a non-negative finite
`amount = coeff · 10^exp`: quantizing to hundredths changes the value
exactly when digits below the hundredths place are non-zero.
`quantExact_iff` proves this against the rational semantics. -/
def quantExact (coeff : Nat) (exp : Int) : Bool :=
  if -2 ≤ exp then true
  else coeff % 10 ^ (-2 - exp).toNat == 0

/-- The checks `_parse_amount` runs after `Decimal(text)` succeeds:
`is_finite`, non-negativity, two-decimal-place quantization, and the
split `divmod(minor_units, 100)`. -/
def afterDecimal (v : DecValue) : Except ChequeErr (Nat × Nat) :=
  match v with
  | .infinite _ => .error (.badParameter "Amount must be a finite number")
  | .nan => .error (.badParameter "Amount must be a finite number")
  | .finite neg coeff exp =>
    if decNeg neg coeff then
      .error (.badParameter "Amount must be non-negative")
    else
      match quantizeMinor coeff exp with
      | .error _ => .error .invalidOperation
      | .ok minor =>
        if quantExact coeff exp = false then
          .error (.badParameter "Amount can have at most 2 decimal places")
        else
          .ok (minor / 100, minor % 100)

/-- The parser `_parse_amount`: strip surrounding whitespace, delete commas, reject
the empty string, parse as `Decimal`, then validate and split into
(dollars, cents). -/
def _parse_amount (raw : String) : Except ChequeErr (Nat × Nat) :=
  let text := removeCommas (pyStrip raw)
  if text = "" then .error (.badParameter "Amount is required")
  else
    match decimalOfChars text.data with
    | none => .error (.badParameter "Amount must be a non-negative number, e.g. 123 or 123.45")
    | some v => afterDecimal v

/-- The constant `_MAX_DOLLARS = 10**15 - 1`. -/
def _MAX_DOLLARS : Nat := 10 ^ 15 - 1

/-- The range check `_ensure_supported_range`. -/
def _ensure_supported_range (dollars : Nat) : Except ChequeErr Unit :=
  if _MAX_DOLLARS < dollars then
    .error (.badParameter "Amount too large. Maximum supported dollars is 999999999999999.")
  else .ok ()

/-! ## Base-b digit grouping

Both expanders peel groups off with `while n > 0: groups.append(n % b); n //= b`.
The loop is embedded with an explicit fuel argument; fuel `n` always
suffices because the argument strictly decreases on every iteration. -/

def groupsAux (b : Nat) : Nat → Nat → List Nat
  | 0, _ => []
  | fuel + 1, n => if n = 0 then [] else n % b :: groupsAux b fuel (n / b)

/-- Base-10000 groups of `n`, least significant first. -/
def groups10000 (n : Nat) : List Nat := groupsAux 10000 n n

/-- Base-1000 groups of `n`, least significant first. -/
def groups1000 (n : Nat) : List Nat := groupsAux 1000 n n

/-! ## The Chinese expander -/

/-- The table `_DIGITS_UPPER`: HK financial uppercase numerals. -/
def _DIGITS_UPPER : Nat → String
  | 0 => "零"
  | 1 => "壹"
  | 2 => "貳"
  | 3 => "叁"
  | 4 => "肆"
  | 5 => "伍"
  | 6 => "陸"
  | 7 => "柒"
  | 8 => "捌"
  | 9 => "玖"
  | _ => ""

/-- The table `_UNIT_WITHIN_GROUP = ["仟", "佰", "拾", ""]`, indexed by position. -/
def _UNIT_WITHIN_GROUP : Nat → String
  | 0 => "仟"
  | 1 => "佰"
  | 2 => "拾"
  | _ => ""

/-- The table `_GROUP_UNITS = ["", "萬", "億", "兆"]`, indexed by group. -/
def _GROUP_UNITS : Nat → String
  | 0 => ""
  | 1 => "萬"
  | 2 => "億"
  | _ => "兆"

/-- The digit loop of `_convert_group_zh`: state is the emitted parts and
the pending-zero flag; a pending zero becomes a `零` only when something
was already emitted in this group. -/
def convertGroupLoop : List (Nat × Nat) → List String → Bool → List String
  | [], parts, _ => parts
  | (i, d) :: rest, parts, zeroPending =>
    if d = 0 then
      convertGroupLoop rest parts true
    else
      convertGroupLoop rest
        ((if zeroPending ∧ parts ≠ [] then parts ++ ["零"] else parts)
          ++ [_DIGITS_UPPER d ++ _UNIT_WITHIN_GROUP i])
        false

/-- The group converter `_convert_group_zh`: 0..9999 to financial uppercase without the group
unit. -/
def _convert_group_zh (n : Nat) : String :=
  if n = 0 then ""
  else
    String.join (convertGroupLoop
      [(0, n / 1000 % 10), (1, n / 100 % 10), (2, n / 10 % 10), (3, n % 10)] [] false)

/-- The high-to-low group loop of `_to_trad_chinese_upper`: skipping an
empty group after something was emitted sets `zeroPending`; a non-zero
group is prefixed by a single `零` when groups were skipped or its value
is below 1000, and only when something was already emitted. -/
def chineseLoop : List (Nat × Nat) → List String → Bool → List String
  | [], parts, _ => parts
  | (idx, g) :: rest, parts, zeroPending =>
    if g = 0 then
      chineseLoop rest parts (if parts ≠ [] then true else zeroPending)
    else
      if parts ≠ [] ∧ (zeroPending = true ∨ g < 1000) then
        chineseLoop rest (parts ++ ["零"] ++ [_convert_group_zh g ++ _GROUP_UNITS idx]) false
      else
        chineseLoop rest (parts ++ [_convert_group_zh g ++ _GROUP_UNITS idx]) zeroPending

/-- The expander `_to_trad_chinese_upper`: the `.error` branch is the
`ValueError("Chinese wording scale exceeded")` raised when more than four
base-10000 groups are needed.  The loop walks the groups from the highest
index down, i.e. over `(zip (range len) groups).reverse`. -/
def _to_trad_chinese_upper (n : Nat) : Except String String :=
  if n = 0 then .ok "零"
  else
    let groups := groups10000 n
    if 4 < groups.length then .error "Chinese wording scale exceeded"
    else .ok (String.join (chineseLoop (((List.range groups.length).zip groups).reverse) [] false))

/-- The cents helper `_to_zh_cents`: 0..99 cents to 角/分 wording. -/
def _to_zh_cents (cents : Nat) : String :=
  if cents = 0 then "正"
  else
    let jiao := cents / 10
    let fen := cents % 10
    String.join
      ((if jiao ≠ 0 then [_DIGITS_UPPER jiao ++ "角"]
        else if fen ≠ 0 then ["零"] else [])
       ++ (if fen ≠ 0 then [_DIGITS_UPPER fen ++ "分"] else []))

/-- The composer `_format_zh_amount`. -/
def _format_zh_amount (dollars cents : Nat) : Except String String :=
  match _to_trad_chinese_upper dollars with
  | .error e => .error e
  | .ok dollarsText =>
    if cents = 0 then .ok (dollarsText ++ "元正")
    else .ok (dollarsText ++ "元" ++ _to_zh_cents cents)

/-! ## The English expander -/

/-- The table `_ONES`: words for 0..19. -/
def _ONES : Nat → String
  | 0 => "zero"
  | 1 => "one"
  | 2 => "two"
  | 3 => "three"
  | 4 => "four"
  | 5 => "five"
  | 6 => "six"
  | 7 => "seven"
  | 8 => "eight"
  | 9 => "nine"
  | 10 => "ten"
  | 11 => "eleven"
  | 12 => "twelve"
  | 13 => "thirteen"
  | 14 => "fourteen"
  | 15 => "fifteen"
  | 16 => "sixteen"
  | 17 => "seventeen"
  | 18 => "eighteen"
  | 19 => "nineteen"
  | _ => ""

/-- The table `_TENS`: words for the tens digit (entries 0 and 1 are empty). -/
def _TENS : Nat → String
  | 2 => "twenty"
  | 3 => "thirty"
  | 4 => "forty"
  | 5 => "fifty"
  | 6 => "sixty"
  | 7 => "seventy"
  | 8 => "eighty"
  | 9 => "ninety"
  | _ => ""

/-- The table `_SCALE_EN = ["", "thousand", "million", "billion", "trillion"]`. -/
def _SCALE_EN : Nat → String
  | 0 => ""
  | 1 => "thousand"
  | 2 => "million"
  | 3 => "billion"
  | _ => "trillion"

/-- The helper `_under_100_to_words`. -/
def _under_100_to_words (n : Nat) : String :=
  if n < 20 then _ONES n
  else _TENS (n / 10) ++ (if n % 10 ≠ 0 then "-" ++ _ONES (n % 10) else "")

/-- The helper `_under_1000_to_words`: parts joined by single spaces. -/
def _under_1000_to_words (n : Nat) : String :=
  let h := n / 100
  let r := n % 100
  String.intercalate " "
    (if h ≠ 0 then
      [_ONES h ++ " hundred"] ++ (if r ≠ 0 then ["and " ++ _under_100_to_words r] else [])
     else
      if r ≠ 0 then [_under_100_to_words r] else [])

/-- The group loop of `_to_english_hk`: for each non-zero group collect
its words (`seg + " " + scale`, stripped) and its numeric value, in
ascending scale order (the caller reverses both lists). -/
def englishGroupLoop : List (Nat × Nat) → List String × List Nat
  | [] => ([], [])
  | (idx, g) :: rest =>
    if g = 0 then englishGroupLoop rest
    else
      let w := pyStrip (_under_1000_to_words g ++
        (if _SCALE_EN idx ≠ "" then " " ++ _SCALE_EN idx else ""))
      ((w :: (englishGroupLoop rest).1), (g :: (englishGroupLoop rest).2))

/-- Python `enumerate(groups)` for the English expander. -/
def englishGroupPairs (n : Nat) : List (Nat × Nat) :=
  (List.range (groups1000 n).length).zip (groups1000 n)

/-- The list `words_parts` after the final `reversed` (highest scale first). -/
def englishWordsParts (n : Nat) : List String :=
  (englishGroupLoop (englishGroupPairs n)).1.reverse

/-- The list `numeric_parts` after the final `reversed` (highest scale first). -/
def englishNumericParts (n : Nat) : List Nat :=
  (englishGroupLoop (englishGroupPairs n)).2.reverse

/-- Python `words[:1].upper() + words[1:]`. -/
def capFirst (s : String) : String :=
  match s.data with
  | [] => ""
  | c :: t => ⟨c.toUpper :: t⟩

/-- The expander `_to_english_hk`: the `.error` branch is the
`ValueError("English wording scale exceeded")` raised when more than five
base-1000 groups are needed.  With two or more non-zero groups and a
lowest group below 100, the final segment is joined with an `and `. -/
def _to_english_hk (n : Nat) : Except String String :=
  if n = 0 then .ok "Zero"
  else if 5 < (groups1000 n).length then .error "English wording scale exceeded"
  else
    let wordsParts := englishWordsParts n
    let numericParts := englishNumericParts n
    let words :=
      if 1 < wordsParts.length ∧ numericParts.getLast?.getD 0 < 100 then
        String.intercalate " " (wordsParts.dropLast ++ ["and " ++ wordsParts.getLast?.getD ""])
      else
        String.intercalate " " wordsParts
    .ok (capFirst words)

/-- The composer `_format_en_amount`. -/
def _format_en_amount (dollars cents : Nat) : Except String String :=
  match _to_english_hk dollars with
  | .error e => .error e
  | .ok dollarsText =>
    if cents = 0 then .ok dollarsText
    else .ok (dollarsText ++ " and " ++ _under_100_to_words cents ++ " " ++
      (if cents = 1 then "cent" else "cents"))

/-! ## The CLI callback -/

/-- The `cheque` callback: parse, range-check, format both lines, then
echo them.  The result is the list of lines written to stdout paired
with the exception that escaped, if any; both `typer.echo` calls come
after all computation, so a failure emits nothing. -/
def cheque (value : String) : List String × Option ChequeErr :=
  match _parse_amount value with
  | .error e => ([], some e)
  | .ok dc =>
    match _ensure_supported_range dc.1 with
    | .error e => ([], some e)
    | .ok _ =>
      match _format_zh_amount dc.1 dc.2 with
      | .error m => ([], some (.valueError m))
      | .ok zh =>
        match _format_en_amount dc.1 dc.2 with
        | .error m => ([], some (.valueError m))
        | .ok en =>
          (["中文：港幣" ++ zh, "English: Hong Kong Dollars " ++ en ++ " only"], none)

/-! ## Spec-side definitions used by the statements -/

/-- The separator glyph 零. -/
def sepGlyph : Char := '零'

/-- The list `cs` contains no two consecutive separator glyphs. -/
def NoDoubleSep (cs : List Char) : Prop :=
  List.Chain' (fun a b => ¬(a = sepGlyph ∧ b = sepGlyph)) cs

/-- Internal invariant of the Chinese expansions: no double separator,
and the separator glyph appears neither first nor last. -/
def GoodZh (cs : List Char) : Prop :=
  NoDoubleSep cs ∧ cs.head? ≠ some sepGlyph ∧ cs.getLast? ≠ some sepGlyph

/-- The cross-group separator rule, stated the way the specification
words it: walk the `(index, group)` pairs from most significant to least,
remember in `skipped` whether one or more whole zero groups were passed
over since the last emitted group, and prefix a non-zero group's
expansion-plus-scale-suffix by exactly one separator glyph when groups
were skipped or the group's value is below 1000 — but only if something
has already been emitted; after emitting, `skipped` is reset. -/
def chineseSpecGo : List (Nat × Nat) → String → Bool → String
  | [], acc, _ => acc
  | (idx, g) :: rest, acc, skipped =>
    if g = 0 then chineseSpecGo rest acc (if acc ≠ "" then true else skipped)
    else
      if acc ≠ "" ∧ (skipped = true ∨ g < 1000) then
        chineseSpecGo rest (acc ++ "零" ++ (_convert_group_zh g ++ _GROUP_UNITS idx)) false
      else
        chineseSpecGo rest (acc ++ (_convert_group_zh g ++ _GROUP_UNITS idx)) false

/-- The Chinese expander as the specification describes it: groups
most-significant first, joined by the cross-group rule of
`chineseSpecGo`; zero is the single zero glyph. -/
def ChineseExpandSpec (n : Nat) : String :=
  if n = 0 then "零"
  else chineseSpecGo (((List.range (groups10000 n).length).zip (groups10000 n)).reverse) "" false

/-! ## String and list helper lemmas -/

theorem join_data (l : List String) (acc : String) :
    (l.foldl (fun r s => r ++ s) acc).data = acc.data ++ (l.map String.data).flatten := by
  induction l generalizing acc with
  | nil => simp
  | cons s t ih => simp [List.foldl_cons, ih, String.data_append]

theorem string_join_data (l : List String) :
    (String.join l).data = (l.map String.data).flatten := by
  have h := join_data l ""
  simp only [String.join, h]
  rfl

/-- The executable sign test agrees with the rational order on the
embedded `Decimal` values: `amount < 0` iff sign set and coefficient
non-zero. -/
theorem decNeg_iff (neg : Bool) (coeff : Nat) (exp : Int) :
    decNeg neg coeff = true ↔ decValQ (.finite neg coeff exp) < 0 := by
  have hpow : (0 : ℚ) < (10 : ℚ) ^ (exp : ℤ) := zpow_pos (by norm_num) _
  cases neg with
  | false =>
    simp only [decNeg, decValQ, Bool.false_and, if_false]
    constructor
    · intro h
      cases h
    · intro h
      exfalso
      have : (0 : ℚ) ≤ 1 * (coeff : ℚ) * (10 : ℚ) ^ (exp : ℤ) := by positivity
      exact absurd h (not_lt.mpr this)
  | true =>
    simp only [decNeg, decValQ, Bool.true_and, bne_iff_ne, ne_eq, if_true]
    constructor
    · intro h
      have hc : (0 : ℚ) < (coeff : ℚ) := by
        exact_mod_cast Nat.pos_of_ne_zero h
      have : (0 : ℚ) < (coeff : ℚ) * (10 : ℚ) ^ (exp : ℤ) := mul_pos hc hpow
      nlinarith
    · intro h hc
      rw [hc] at h
      norm_num at h

/-- The executable quantization-exactness test agrees with the rational
semantics: whenever `quantize` succeeds, `amount == quantized` iff no
digits below the hundredths place were dropped. -/
theorem quantExact_iff (coeff : Nat) (exp : Int) (minor : Nat)
    (h : quantizeMinor coeff exp = .ok minor) :
    (quantExact coeff exp = true ↔
      (coeff : ℚ) * (10 : ℚ) ^ (exp : ℤ) = (minor : ℚ) / 100) := by
  have h10 : (10 : ℚ) ≠ 0 := by norm_num
  unfold quantizeMinor at h
  by_cases he : -2 ≤ exp
  · rw [if_pos he] at h
    have hm : minor = coeff * 10 ^ (exp + 2).toNat := by
      by_cases hb : 10 ^ 28 ≤ coeff * 10 ^ (exp + 2).toNat
      · rw [if_pos hb] at h
        cases h
      · rw [if_neg hb] at h
        cases h
        rfl
    have ht : ((exp + 2).toNat : ℤ) = exp + 2 := Int.toNat_of_nonneg (by omega)
    have hv : ((minor : ℚ)) = (coeff : ℚ) * (10 : ℚ) ^ ((exp + 2).toNat : ℤ) := by
      rw [hm]
      push_cast
      rw [zpow_natCast]
    simp only [quantExact, if_pos he, true_iff]
    rw [hv, ht, zpow_add₀ h10]
    have : (10 : ℚ) ^ (2 : ℤ) = 100 := by norm_num
    rw [this]
    ring
  · rw [if_neg he] at h
    dsimp only at h
    have hk : (((-2 - exp).toNat : ℤ)) = -2 - exp := Int.toNat_of_nonneg (by omega)
    have hkpos : 1 ≤ (-2 - exp).toNat := by omega
    have hpk : (1 : Nat) < 10 ^ (-2 - exp).toNat :=
      Nat.one_lt_pow (by omega) (by norm_num)
    constructor
    · intro hq
      have hr : coeff % 10 ^ (-2 - exp).toNat = 0 := by
        simp only [quantExact, if_neg he, beq_iff_eq] at hq
        exact hq
      have hd : 10 ^ (-2 - exp).toNat * (coeff / 10 ^ (-2 - exp).toNat) = coeff :=
        Nat.mul_div_cancel' (Nat.dvd_of_mod_eq_zero hr)
      have hm : minor = coeff / 10 ^ (-2 - exp).toNat := by
        rw [hr] at h
        simp only [Nat.mul_zero, Nat.lt_irrefl] at h
        have hcond : ¬ (10 ^ (-2 - exp).toNat < 2 * 0 ∨
            (2 * 0 = 10 ^ (-2 - exp).toNat ∧ coeff / 10 ^ (-2 - exp).toNat % 2 = 1)) := by
          push_neg
          constructor
          · omega
          · intro habs
            exfalso
            omega
        rw [if_neg hcond, Nat.add_zero] at h
        by_cases hb : 10 ^ 28 ≤ coeff / 10 ^ (-2 - exp).toNat
        · rw [if_pos hb] at h
          cases h
        · rw [if_neg hb] at h
          cases h
          rfl
      have hcq : (coeff : ℚ) =
          (minor : ℚ) * (10 : ℚ) ^ (((-2 - exp).toNat : Nat) : ℤ) := by
        rw [hm]
        rw [zpow_natCast]
        exact_mod_cast (by rw [Nat.mul_comm] at hd; exact hd.symm)
      rw [hcq, hk]
      rw [mul_assoc, ← zpow_add₀ h10]
      have : (-2 - exp + exp : ℤ) = -2 := by ring
      rw [this]
      have h2 : (10 : ℚ) ^ (-2 : ℤ) = 1 / 100 := by norm_num
      rw [h2]
      ring
    · intro hv
      simp only [quantExact, if_neg he, beq_iff_eq]
      have hc100 : (coeff : ℚ) * (10 : ℚ) ^ (exp : ℤ) * (10 : ℚ) ^ ((-exp - 2 : Int)) =
          (minor : ℚ) / 100 * (10 : ℚ) ^ ((-exp - 2 : Int)) := by
        rw [hv]
      rw [mul_assoc, ← zpow_add₀ h10] at hc100
      have he2 : (exp + (-exp - 2) : ℤ) = -2 := by ring
      rw [he2] at hc100
      have hsplit : (10 : ℚ) ^ ((-exp - 2 : Int)) =
          (10 : ℚ) ^ (((-2 - exp).toNat : Nat) : ℤ) := by
        rw [hk]
        congr 1
        ring
      rw [hsplit, zpow_natCast] at hc100
      have hfin : (coeff : ℚ) = (minor : ℚ) * (10 : ℚ) ^ ((-2 - exp).toNat : Nat) := by
        have h2 : (10 : ℚ) ^ (-2 : ℤ) = 1 / 100 := by norm_num
        rw [h2] at hc100
        field_simp at hc100
        linarith
      have : coeff = minor * 10 ^ (-2 - exp).toNat := by
        exact_mod_cast hfin
      rw [this]
      exact Nat.mul_mod_left minor _

/-! ## Digit-group length lemmas -/

theorem groupsAux_length_le_iff (b : Nat) (hb : 2 ≤ b) :
    ∀ (k n fuel : Nat), n ≤ fuel → ((groupsAux b fuel n).length ≤ k ↔ n < b ^ k) := by
  intro k
  induction k with
  | zero =>
    intro n fuel hf
    cases fuel with
    | zero =>
      interval_cases n
      simp [groupsAux]
    | succ m =>
      by_cases h0 : n = 0
      · subst h0
        simp [groupsAux]
      · simp [groupsAux, h0]
  | succ k ih =>
    intro n fuel hf
    cases fuel with
    | zero =>
      interval_cases n
      simp [groupsAux]
      positivity
    | succ m =>
      by_cases h0 : n = 0
      · subst h0
        simp [groupsAux]
        positivity
      · have hdiv : n / b ≤ m := by
          have := Nat.div_lt_self (Nat.pos_of_ne_zero h0) (by omega : 1 < b)
          omega
        have hrec := ih (n / b) m hdiv
        simp only [groupsAux, if_neg h0, List.length_cons, Nat.add_le_add_iff_right, hrec]
        rw [Nat.div_lt_iff_lt_mul (by omega : 0 < b), pow_succ]

theorem groups10000_length_le_iff (n : Nat) :
    (groups10000 n).length ≤ 4 ↔ n < 10 ^ 16 := by
  have h := groupsAux_length_le_iff 10000 (by norm_num) 4 n n le_rfl
  rw [groups10000, h]
  norm_num

theorem groups1000_length_le_iff (n : Nat) :
    (groups1000 n).length ≤ 5 ↔ n < 10 ^ 15 := by
  have h := groupsAux_length_le_iff 1000 (by norm_num) 5 n n le_rfl
  rw [groups1000, h]
  norm_num

theorem trimLeft_idem (l : List Char) : trimLeftChars (trimLeftChars l) = trimLeftChars l := by
  induction l with
  | nil => rfl
  | cons c t ih =>
    by_cases h : isSpaceChar c
    · simpa [trimLeftChars, List.dropWhile_cons, h] using ih
    · simp [trimLeftChars, List.dropWhile_cons, h]

theorem trimLeft_prefix_fix {l x : List Char} (hl : trimLeftChars l = l)
    (hx : x <+: l) : trimLeftChars x = x := by
  cases x with
  | nil => rfl
  | cons c t =>
    obtain ⟨r, hr⟩ := hx
    subst hr
    by_cases h : isSpaceChar c
    · exfalso
      have h1 : trimLeftChars ((c :: t) ++ r) = List.dropWhile isSpaceChar (t ++ r) := by
        simp [trimLeftChars, List.cons_append, List.dropWhile_cons, h]
      rw [h1] at hl
      have h2 := List.IsSuffix.length_le (List.dropWhile_suffix (l := t ++ r) isSpaceChar)
      rw [hl] at h2
      simp [List.length_append] at h2
    · simp [trimLeftChars, List.dropWhile_cons, h]

theorem trimRight_prefix_self (l : List Char) : trimRightChars l <+: l := by
  obtain ⟨t, ht⟩ := List.dropWhile_suffix (l := l.reverse) isSpaceChar
  refine ⟨t.reverse, ?_⟩
  conv_rhs => rw [← List.reverse_reverse l, ← ht]
  simp [trimRightChars, trimLeftChars, List.reverse_append]

theorem trimRight_idem (l : List Char) :
    trimRightChars (trimRightChars l) = trimRightChars l := by
  simp [trimRightChars, List.reverse_reverse, trimLeft_idem]

theorem strip_idem (l : List Char) : stripChars (stripChars l) = stripChars l := by
  unfold stripChars
  have h1 : trimLeftChars (trimRightChars (trimLeftChars l)) =
      trimRightChars (trimLeftChars l) :=
    trimLeft_prefix_fix (trimLeft_idem l) (trimRight_prefix_self (trimLeftChars l))
  rw [h1, trimRight_idem]

theorem pyStrip_idem (s : String) : pyStrip (pyStrip s) = pyStrip s := by
  apply String.ext
  simp [pyStrip, strip_idem]

/-! ## C6: concrete parser vectors and whitespace stripping -/

/-- C6: `_parse_amount` strips surrounding whitespace (parsing a string
and its stripped form agree) and deletes comma separators, and yields
`(123, 0)`, `(123, 45)`, `(1234, 50)` on the three reference inputs,
while `"-1"` fails with the negative-amount error. -/
theorem c6_parse_amount_vectors :
    _parse_amount "123" = .ok (123, 0) ∧
    _parse_amount "123.45" = .ok (123, 45) ∧
    _parse_amount "1,234.50" = .ok (1234, 50) ∧
    _parse_amount "-1" = .error (.badParameter "Amount must be non-negative") ∧
    ∀ s : String, _parse_amount s = _parse_amount (pyStrip s) := by
  refine ⟨by rfl, by rfl, by rfl, by rfl, ?_⟩
  intro s
  unfold _parse_amount
  rw [pyStrip_idem]

/-! ## C7: the range check -/

/-- C7: `_ensure_supported_range` fails with the range-exceeded usage
error exactly for dollar values above `10^15 - 1` and succeeds exactly
for values up to and including `10^15 - 1`. -/
theorem c7_range_check (d : Nat) :
    (_ensure_supported_range d =
      .error (.badParameter "Amount too large. Maximum supported dollars is 999999999999999.") ↔
        10 ^ 15 - 1 < d) ∧
    (_ensure_supported_range d = .ok () ↔ d ≤ 10 ^ 15 - 1) := by
  unfold _ensure_supported_range _MAX_DOLLARS
  by_cases h : (10 : Nat) ^ 15 - 1 < d
  · rw [if_pos h]
    constructor
    · exact ⟨fun _ => h, fun _ => rfl⟩
    · constructor
      · intro hc
        simp at hc
      · intro hc
        exact absurd h (by omega)
  · rw [if_neg h]
    constructor
    · constructor
      · intro hc
        simp at hc
      · intro hc
        exact absurd hc h
    · exact ⟨fun _ => by omega, fun _ => rfl⟩

/-! ## C8: the scale-error branches -/

/-- C8: `_to_trad_chinese_upper` raises its scale error exactly for
`n ≥ 10^16` (succeeding otherwise) and `_to_english_hk` raises its scale
error exactly for `n ≥ 10^15` (succeeding otherwise); in particular for
every dollars value passing the range check (at most `10^15 − 1`) both
error branches are unreachable. -/
theorem c8_scale_errors (n : Nat) :
    (_to_trad_chinese_upper n = .error "Chinese wording scale exceeded" ↔ 10 ^ 16 ≤ n) ∧
    ((_to_trad_chinese_upper n).isOk = true ↔ n < 10 ^ 16) ∧
    (_to_english_hk n = .error "English wording scale exceeded" ↔ 10 ^ 15 ≤ n) ∧
    ((_to_english_hk n).isOk = true ↔ n < 10 ^ 15) := by
  have hzh := groups10000_length_le_iff n
  have hen := groups1000_length_le_iff n
  have hz' : 4 < (groups10000 n).length ↔ 10 ^ 16 ≤ n := by
    constructor
    · intro h
      by_contra hlt
      have h2 := hzh.mpr (by omega : n < 10 ^ 16)
      omega
    · intro h
      by_contra hle
      have h2 := hzh.mp (by omega : (groups10000 n).length ≤ 4)
      omega
  have he' : 5 < (groups1000 n).length ↔ 10 ^ 15 ≤ n := by
    constructor
    · intro h
      by_contra hlt
      have h2 := hen.mpr (by omega : n < 10 ^ 15)
      omega
    · intro h
      by_contra hle
      have h2 := hen.mp (by omega : (groups1000 n).length ≤ 5)
      omega
  unfold _to_trad_chinese_upper _to_english_hk
  by_cases h0 : n = 0
  · subst h0
    norm_num [Except.isOk, Except.toBool]
    constructor
    · intro hc
      cases hc
    · intro hc
      cases hc
  · simp only [if_neg h0]
    refine ⟨?_, ?_, ?_, ?_⟩
    · by_cases hz : 4 < (groups10000 n).length
      · rw [if_pos hz]
        exact ⟨fun _ => hz'.mp hz, fun _ => rfl⟩
      · rw [if_neg hz]
        constructor
        · intro hc
          simp at hc
        · intro hge
          exact absurd (hz'.mpr hge) hz
    · by_cases hz : 4 < (groups10000 n).length
      · rw [if_pos hz]
        constructor
        · intro hc
          simp [Except.isOk, Except.toBool] at hc
        · intro hlt
          have := hz'.mp hz
          omega
      · rw [if_neg hz]
        constructor
        · intro _
          exact hzh.mp (by omega)
        · intro _
          simp [Except.isOk, Except.toBool]
    · by_cases hz : 5 < (groups1000 n).length
      · rw [if_pos hz]
        exact ⟨fun _ => he'.mp hz, fun _ => rfl⟩
      · rw [if_neg hz]
        constructor
        · intro hc
          simp at hc
        · intro hge
          exact absurd (he'.mpr hge) hz
    · by_cases hz : 5 < (groups1000 n).length
      · rw [if_pos hz]
        constructor
        · intro hc
          simp [Except.isOk, Except.toBool] at hc
        · intro hlt
          have := he'.mp hz
          omega
      · rw [if_neg hz]
        constructor
        · intro _
          exact hen.mp (by omega)
        · intro _
          simp [Except.isOk, Except.toBool]

/-! ## C1: separator-glyph sanity of the Chinese expander -/

theorem goodZh_nil : GoodZh [] := by
  refine ⟨List.chain'_nil, ?_, ?_⟩ <;> simp

theorem noDoubleSep_of_sepfree {cs : List Char} (h : sepGlyph ∉ cs) : NoDoubleSep cs := by
  induction cs with
  | nil => exact List.chain'_nil
  | cons a t ih =>
    rw [NoDoubleSep, List.chain'_cons']
    constructor
    · intro y _ hab
      exact h (hab.1 ▸ List.mem_cons_self a t)
    · exact ih (fun hm => h (List.mem_cons_of_mem a hm))

theorem goodZh_of_sepfree {cs : List Char} (h : sepGlyph ∉ cs) : GoodZh cs := by
  refine ⟨noDoubleSep_of_sepfree h, ?_, ?_⟩
  · intro hc
    exact h (List.mem_of_mem_head? (by rw [hc]; exact rfl))
  · intro hc
    rw [List.getLast?_eq_head?_reverse] at hc
    exact h (List.mem_reverse.mp (List.mem_of_mem_head? (by rw [hc]; exact rfl)))

theorem goodZh_append {xs ys : List Char} (h1 : GoodZh xs) (h2 : GoodZh ys) :
    GoodZh (xs ++ ys) := by
  obtain ⟨c1, hh1, hl1⟩ := h1
  obtain ⟨c2, hh2, hl2⟩ := h2
  refine ⟨?_, ?_, ?_⟩
  · rw [NoDoubleSep, List.chain'_append]
    refine ⟨c1, c2, ?_⟩
    intro x hx y _ hxy
    exact hl1 (by rw [hx]; exact congrArg some hxy.1.symm ▸ rfl)
  · rw [List.head?_append]
    cases hx : xs.head? with
    | none => simpa [hx, Option.or] using hh2
    | some a =>
      rw [hx] at hh1
      simpa [hx, Option.or] using hh1
  · rw [List.getLast?_append]
    cases hy : ys.getLast? with
    | none => simpa [hy, Option.or] using hl1
    | some a =>
      rw [hy] at hl2
      simpa [hy, Option.or] using hl2

theorem goodZh_append_sep {xs ys : List Char} (h1 : GoodZh xs) (hx : xs ≠ [])
    (h2 : GoodZh ys) (hy : ys ≠ []) : GoodZh (xs ++ sepGlyph :: ys) := by
  obtain ⟨c1, hh1, hl1⟩ := h1
  obtain ⟨c2, hh2, hl2⟩ := h2
  refine ⟨?_, ?_, ?_⟩
  · rw [NoDoubleSep, List.chain'_append]
    refine ⟨c1, ?_, ?_⟩
    · rw [List.chain'_cons']
      refine ⟨?_, c2⟩
      intro y hym hxy
      exact hh2 (by rw [← hxy.2]; exact hym)
    · intro x hxm y hym hxy
      exact hl1 (by rw [hxm]; exact congrArg some hxy.1.symm ▸ rfl)
  · rw [List.head?_append]
    rw [List.head?_eq_head hx]
    rw [List.head?_eq_head hx] at hh1
    simpa [Option.or] using hh1
  · rw [List.getLast?_append]
    have : (sepGlyph :: ys).getLast? = ys.getLast? := by
      rw [List.getLast?_eq_head?_reverse, List.getLast?_eq_head?_reverse, List.reverse_cons,
        List.head?_append, List.head?_eq_head (by simpa using hy)]
      simp [Option.or]
    rw [this]
    cases hys : ys.getLast? with
    | none => exact absurd (by simpa using hys) hy
    | some a =>
      rw [hys] at hl2
      simpa [Option.or] using hl2

/-- The character content of a Python list of string parts (what
`"".join(parts)` produces). -/
def partsData (parts : List String) : List Char := (parts.map String.data).flatten

theorem partsData_append (a b : List String) :
    partsData (a ++ b) = partsData a ++ partsData b := by
  simp [partsData, List.flatten_append]

theorem partsData_single (s : String) : partsData [s] = s.data := by
  simp [partsData]

theorem partsData_ne_nil {parts : List String} (h : parts ≠ [])
    (hall : ∀ s ∈ parts, s.data ≠ []) : partsData parts ≠ [] := by
  cases parts with
  | nil => exact absurd rfl h
  | cons s t =>
    have hs : s.data ≠ [] := hall s (List.mem_cons_self s t)
    simp only [partsData, List.map_cons, List.flatten_cons]
    intro hc
    exact hs (List.append_eq_nil.mp hc).1

/-- Invariant carried by both expansion loops: the emitted text is
`GoodZh` and every emitted part is non-empty. -/
def PartsInv (parts : List String) : Prop :=
  GoodZh (partsData parts) ∧ ∀ s ∈ parts, s.data ≠ []

theorem partsInv_nil : PartsInv [] := by
  constructor
  · exact goodZh_nil
  · intro s hs
    cases hs

/-- A digit chunk `_DIGITS_UPPER d ++ _UNIT_WITHIN_GROUP i` with
`1 ≤ d ≤ 9` is non-empty and contains no separator glyph. -/
theorem chunk_sepfree (d i : Nat) (h1 : 1 ≤ d) (h2 : d ≤ 9) :
    sepGlyph ∉ (_DIGITS_UPPER d ++ _UNIT_WITHIN_GROUP i).data ∧
      (_DIGITS_UPPER d ++ _UNIT_WITHIN_GROUP i).data ≠ [] := by
  have hu : _UNIT_WITHIN_GROUP i = "仟" ∨ _UNIT_WITHIN_GROUP i = "佰" ∨
      _UNIT_WITHIN_GROUP i = "拾" ∨ _UNIT_WITHIN_GROUP i = "" := by
    match i with
    | 0 => exact Or.inl rfl
    | 1 => exact Or.inr (Or.inl rfl)
    | 2 => exact Or.inr (Or.inr (Or.inl rfl))
    | n + 3 => exact Or.inr (Or.inr (Or.inr rfl))
  rcases hu with hu | hu | hu | hu <;> rw [hu] <;> interval_cases d <;> decide

/-- Group units contain no separator glyph. -/
theorem groupUnits_sepfree (idx : Nat) : sepGlyph ∉ (_GROUP_UNITS idx).data := by
  match idx with
  | 0 => decide
  | 1 => decide
  | 2 => decide
  | n + 3 => exact (by decide : sepGlyph ∉ ("兆" : String).data)

theorem convertGroupLoop_inv (l : List (Nat × Nat)) (h : ∀ p ∈ l, p.2 ≤ 9)
    (parts : List String) (zp : Bool) (hp : PartsInv parts) :
    PartsInv (convertGroupLoop l parts zp) := by
  induction l generalizing parts zp with
  | nil => exact hp
  | cons p t ih =>
    obtain ⟨i, d⟩ := p
    have hd9 : d ≤ 9 := h (i, d) (List.mem_cons_self _ t)
    have ht : ∀ q ∈ t, q.2 ≤ 9 := fun q hq => h q (List.mem_cons_of_mem _ hq)
    by_cases hd : d = 0
    · rw [convertGroupLoop, if_pos hd]
      exact ih ht parts true hp
    · rw [convertGroupLoop, if_neg hd]
      apply ih ht
      have hchunk := chunk_sepfree d i (by omega) hd9
      by_cases hzp : zp ∧ parts ≠ []
      · rw [if_pos hzp]
        constructor
        · rw [List.append_assoc, partsData_append, partsData_append, partsData_single,
            partsData_single]
          have h1 : ("零" : String).data = [sepGlyph] := rfl
          rw [h1]
          rw [show ([sepGlyph] ++ (_DIGITS_UPPER d ++ _UNIT_WITHIN_GROUP i).data) =
            sepGlyph :: (_DIGITS_UPPER d ++ _UNIT_WITHIN_GROUP i).data from rfl]
          exact goodZh_append_sep hp.1 (partsData_ne_nil hzp.2 hp.2)
            (goodZh_of_sepfree hchunk.1) hchunk.2
        · intro s hs
          rcases List.mem_append.mp hs with hs | hs
          · rcases List.mem_append.mp hs with hs | hs
            · exact hp.2 s hs
            · rw [List.mem_singleton.mp hs]
              decide
          · rw [List.mem_singleton.mp hs]
            exact hchunk.2
      · rw [if_neg hzp]
        constructor
        · rw [partsData_append, partsData_single]
          exact goodZh_append hp.1 (goodZh_of_sepfree hchunk.1)
        · intro s hs
          rcases List.mem_append.mp hs with hs | hs
          · exact hp.2 s hs
          · rw [List.mem_singleton.mp hs]
            exact hchunk.2

theorem convert_group_zh_goodZh (n : Nat) : GoodZh (_convert_group_zh n).data := by
  unfold _convert_group_zh
  by_cases h0 : n = 0
  · rw [if_pos h0]
    exact goodZh_nil
  · rw [if_neg h0]
    rw [string_join_data]
    have h9 : ∀ p ∈ [(0, n / 1000 % 10), (1, n / 100 % 10), (2, n / 10 % 10), (3, n % 10)],
        p.2 ≤ 9 := by
      intro p hp
      simp only [List.mem_cons, List.not_mem_nil, or_false] at hp
      rcases hp with rfl | rfl | rfl | rfl <;> dsimp only <;> omega
    exact (convertGroupLoop_inv _ h9 [] false partsInv_nil).1

theorem convertGroupLoop_ne_nil_of_parts (l : List (Nat × Nat)) (parts : List String)
    (zp : Bool) (hp : parts ≠ []) : convertGroupLoop l parts zp ≠ [] := by
  induction l generalizing parts zp with
  | nil => exact hp
  | cons p t ih =>
    obtain ⟨i, d⟩ := p
    by_cases hd : d = 0
    · rw [convertGroupLoop, if_pos hd]
      exact ih parts true hp
    · rw [convertGroupLoop, if_neg hd]
      exact ih _ false (by simp)

theorem convertGroupLoop_ne_nil (l : List (Nat × Nat)) (parts : List String) (zp : Bool)
    (hw : ∃ p ∈ l, p.2 ≠ 0) : convertGroupLoop l parts zp ≠ [] := by
  induction l generalizing parts zp with
  | nil =>
    obtain ⟨p, hp, _⟩ := hw
    cases hp
  | cons p t ih =>
    obtain ⟨i, d⟩ := p
    by_cases hd : d = 0
    · rw [convertGroupLoop, if_pos hd]
      obtain ⟨q, hq, hq2⟩ := hw
      rcases List.mem_cons.mp hq with rfl | hq
      · exact absurd hd hq2
      · exact ih parts true ⟨q, hq, hq2⟩
    · rw [convertGroupLoop, if_neg hd]
      exact convertGroupLoop_ne_nil_of_parts t _ false (by simp)

theorem convert_group_zh_ne_nil (n : Nat) (h1 : n ≠ 0) (h2 : n ≤ 9999) :
    (_convert_group_zh n).data ≠ [] := by
  unfold _convert_group_zh
  rw [if_neg h1, string_join_data]
  have hw : ∃ p ∈ [(0, n / 1000 % 10), (1, n / 100 % 10), (2, n / 10 % 10), (3, n % 10)],
      p.2 ≠ 0 := by
    by_cases ha : n / 1000 % 10 = 0
    · by_cases hb : n / 100 % 10 = 0
      · by_cases hc : n / 10 % 10 = 0
        · refine ⟨(3, n % 10), by simp, ?_⟩
          dsimp only
          omega
        · exact ⟨(2, n / 10 % 10), by simp, hc⟩
      · exact ⟨(1, n / 100 % 10), by simp, hb⟩
    · exact ⟨(0, n / 1000 % 10), by simp, ha⟩
  have h9 : ∀ p ∈ [(0, n / 1000 % 10), (1, n / 100 % 10), (2, n / 10 % 10), (3, n % 10)],
      p.2 ≤ 9 := by
    intro p hp
    simp only [List.mem_cons, List.not_mem_nil, or_false] at hp
    rcases hp with rfl | rfl | rfl | rfl <;> dsimp only <;> omega
  exact partsData_ne_nil (convertGroupLoop_ne_nil _ [] false hw)
    (convertGroupLoop_inv _ h9 [] false partsInv_nil).2

theorem groupsAux_mem_lt (b : Nat) (hb : 0 < b) :
    ∀ (fuel n : Nat), ∀ x ∈ groupsAux b fuel n, x < b := by
  intro fuel
  induction fuel with
  | zero =>
    intro n x hx
    cases hx
  | succ m ih =>
    intro n x hx
    by_cases h0 : n = 0
    · rw [groupsAux, if_pos h0] at hx
      cases hx
    · rw [groupsAux, if_neg h0] at hx
      rcases List.mem_cons.mp hx with rfl | hx
      · exact Nat.mod_lt _ hb
      · exact ih (n / b) x hx

theorem chineseLoop_inv (l : List (Nat × Nat)) (h : ∀ p ∈ l, p.2 < 10000)
    (parts : List String) (zp : Bool) (hp : PartsInv parts) :
    PartsInv (chineseLoop l parts zp) := by
  induction l generalizing parts zp with
  | nil => exact hp
  | cons p t ih =>
    obtain ⟨idx, g⟩ := p
    have hg : g < 10000 := h (idx, g) (List.mem_cons_self _ t)
    have ht : ∀ q ∈ t, q.2 < 10000 := fun q hq => h q (List.mem_cons_of_mem _ hq)
    by_cases hgz : g = 0
    · rw [chineseLoop, if_pos hgz]
      exact ih ht parts _ hp
    · rw [chineseLoop, if_neg hgz]
      have hseg : GoodZh (_convert_group_zh g ++ _GROUP_UNITS idx).data ∧
          (_convert_group_zh g ++ _GROUP_UNITS idx).data ≠ [] := by
        constructor
        · rw [String.data_append]
          exact goodZh_append (convert_group_zh_goodZh g)
            (goodZh_of_sepfree (groupUnits_sepfree idx))
        · rw [String.data_append]
          intro hc
          exact convert_group_zh_ne_nil g hgz (by omega) (List.append_eq_nil.mp hc).1
      by_cases hcond : parts ≠ [] ∧ (zp = true ∨ g < 1000)
      · rw [if_pos hcond]
        apply ih ht
        constructor
        · rw [partsData_append, partsData_append, partsData_single, partsData_single]
          have h1 : ("零" : String).data = [sepGlyph] := rfl
          rw [h1, List.append_assoc]
          rw [show ([sepGlyph] ++ (_convert_group_zh g ++ _GROUP_UNITS idx).data) =
            sepGlyph :: (_convert_group_zh g ++ _GROUP_UNITS idx).data from rfl]
          exact goodZh_append_sep hp.1 (partsData_ne_nil hcond.1 hp.2) hseg.1 hseg.2
        · intro s hs
          rcases List.mem_append.mp hs with hs | hs
          · rcases List.mem_append.mp hs with hs | hs
            · exact hp.2 s hs
            · rw [List.mem_singleton.mp hs]
              decide
          · rw [List.mem_singleton.mp hs]
            exact hseg.2
      · rw [if_neg hcond]
        apply ih ht
        constructor
        · rw [partsData_append, partsData_single]
          exact goodZh_append hp.1 hseg.1
        · intro s hs
          rcases List.mem_append.mp hs with hs | hs
          · exact hp.2 s hs
          · rw [List.mem_singleton.mp hs]
            exact hseg.2

theorem to_trad_goodZh (n : Nat) (h0 : n ≠ 0) (h : n < 10 ^ 16) :
    ∃ s, _to_trad_chinese_upper n = .ok s ∧ GoodZh s.data := by
  unfold _to_trad_chinese_upper
  rw [if_neg h0]
  have hlen : ¬ 4 < (groups10000 n).length := by
    have := (groups10000_length_le_iff n).mpr h
    omega
  rw [if_neg hlen]
  refine ⟨_, rfl, ?_⟩
  rw [string_join_data]
  have hmem : ∀ p ∈ ((List.range (groups10000 n).length).zip (groups10000 n)).reverse,
      p.2 < 10000 := by
    intro p hp
    rw [List.mem_reverse] at hp
    have := (List.of_mem_zip hp).2
    exact groupsAux_mem_lt 10000 (by norm_num) n n p.2 this
  exact (chineseLoop_inv _ hmem [] false partsInv_nil).1

/-- C1 (counterexample to the claim as stated): the expansion of 0 equals
the single zero glyph — and that string *does* start with the separator
glyph 零, so "never starts with the separator glyph" fails at `n = 0`,
which the claim's range (every non-negative `n < 10^16`) includes. -/
theorem c1_zero_starts_with_separator :
    _to_trad_chinese_upper 0 = .ok "零" ∧
    ("零" : String).data.head? = some sepGlyph :=
  ⟨rfl, rfl⟩

/-- C1 (amended): for every `n < 10^16` the Chinese expansion exists and
contains no two consecutive separator glyphs; for non-zero `n` it also
never starts with the separator glyph; and `_to_trad_chinese_upper 0` is
the single zero glyph (which is why `n = 0` must be excluded from the
never-starts clause). -/
theorem c1_chinese_separator_sanity :
    (∀ n : Nat, n ≠ 0 → n < 10 ^ 16 →
      ∃ s, _to_trad_chinese_upper n = .ok s ∧ NoDoubleSep s.data ∧
        s.data.head? ≠ some sepGlyph) ∧
    _to_trad_chinese_upper 0 = .ok "零" ∧ NoDoubleSep ("零" : String).data := by
  refine ⟨?_, rfl, ?_⟩
  · intro n h0 h
    obtain ⟨s, hs, hg⟩ := to_trad_goodZh n h0 h
    exact ⟨s, hs, hg.1, hg.2.1⟩
  · exact List.chain'_singleton _

/-- Witness for C1 at `n = 120034`. -/
theorem c1_chinese_separator_sanity_witness :
    ∃ s, _to_trad_chinese_upper 120034 = .ok s ∧ NoDoubleSep s.data ∧
      s.data.head? ≠ some sepGlyph :=
  c1_chinese_separator_sanity.1 120034 (by norm_num) (by norm_num)

/-! ## C3: the cross-group separator rule -/

theorem string_data_eq_nil_iff (s : String) : s.data = [] ↔ s = "" := by
  constructor
  · intro h
    exact String.ext h
  · intro h
    rw [h]

theorem string_join_append_single (parts : List String) (s : String) :
    String.join (parts ++ [s]) = String.join parts ++ s := by
  apply String.ext
  rw [String.data_append, string_join_data, string_join_data, List.map_append,
    List.flatten_append]
  simp

theorem string_join_ne_empty {parts : List String} (h : parts ≠ [])
    (hall : ∀ s ∈ parts, s.data ≠ []) : String.join parts ≠ "" := by
  intro hc
  have := (string_data_eq_nil_iff (String.join parts)).mpr hc
  rw [string_join_data] at this
  exact partsData_ne_nil h hall this

theorem chineseLoop_spec (l : List (Nat × Nat)) (h : ∀ p ∈ l, p.2 < 10000) :
    ∀ (parts : List String) (zp : Bool),
      (∀ s ∈ parts, s.data ≠ []) → (zp = true → parts ≠ []) →
      String.join (chineseLoop l parts zp) = chineseSpecGo l (String.join parts) zp := by
  induction l with
  | nil =>
    intro parts zp _ _
    rfl
  | cons p t ih =>
    obtain ⟨idx, g⟩ := p
    have hg : g < 10000 := h (idx, g) (List.mem_cons_self _ t)
    have ht : ∀ q ∈ t, q.2 < 10000 := fun q hq => h q (List.mem_cons_of_mem _ hq)
    intro parts zp hall hzp
    have hiff : parts ≠ [] ↔ String.join parts ≠ "" := by
      constructor
      · intro hne
        exact string_join_ne_empty hne hall
      · intro hne hc
        rw [hc] at hne
        exact hne rfl
    by_cases hgz : g = 0
    · rw [chineseLoop, chineseSpecGo, if_pos hgz, if_pos hgz]
      by_cases hpe : parts = []
      · subst hpe
        rw [if_neg (show ¬([] : List String) ≠ [] from fun hc => hc rfl),
          if_neg (show ¬(String.join [] ≠ "") from fun hc => hc rfl)]
        exact ih ht [] zp hall hzp
      · rw [if_pos hpe, if_pos (hiff.mp hpe)]
        exact ih ht parts true hall (fun _ => hpe)
    · have hchunk : (_convert_group_zh g ++ _GROUP_UNITS idx).data ≠ [] := by
        intro hc
        rw [String.data_append] at hc
        exact convert_group_zh_ne_nil g hgz (by omega) (List.append_eq_nil.mp hc).1
      rw [chineseLoop, chineseSpecGo, if_neg hgz, if_neg hgz]
      by_cases hcond : parts ≠ [] ∧ (zp = true ∨ g < 1000)
      · rw [if_pos hcond, if_pos (by exact ⟨hiff.mp hcond.1, hcond.2⟩)]
        rw [ih ht _ false ?hall2 (by intro hc; cases hc)]
        · congr 1
          rw [string_join_append_single, string_join_append_single]
        case hall2 =>
          intro s hs
          rcases List.mem_append.mp hs with hs | hs
          · rcases List.mem_append.mp hs with hs | hs
            · exact hall s hs
            · rw [List.mem_singleton.mp hs]
              decide
          · rw [List.mem_singleton.mp hs]
            exact hchunk
      · have hzpf : zp = false := by
          cases hzpv : zp with
          | false => rfl
          | true =>
            exfalso
            exact hcond ⟨hzp hzpv, Or.inl hzpv⟩
        subst hzpf
        rw [if_neg hcond, if_neg (by
          intro hc
          exact hcond ⟨hiff.mpr hc.1, hc.2⟩)]
        rw [ih ht _ false ?hall3 (by intro hc; cases hc)]
        · congr 1
          rw [string_join_append_single]
        case hall3 =>
          intro s hs
          rcases List.mem_append.mp hs with hs | hs
          · exact hall s hs
          · rw [List.mem_singleton.mp hs]
            exact hchunk

/-- C3: across group boundaries `_to_trad_chinese_upper` implements
exactly the specification's rule — one separator glyph before a non-zero
group when whole zero groups were skipped or the group value is below
1000, and only when something was already emitted — stated as equality
with the spec-worded `ChineseExpandSpec`; and concretely
`_to_trad_chinese_upper 120034 = "壹拾貳萬零叁拾肆"`. -/
theorem c3_cross_group_rule :
    (∀ n : Nat, n < 10 ^ 16 → _to_trad_chinese_upper n = .ok (ChineseExpandSpec n)) ∧
    _to_trad_chinese_upper 120034 = .ok "壹拾貳萬零叁拾肆" := by
  constructor
  · intro n hn
    unfold _to_trad_chinese_upper ChineseExpandSpec
    by_cases h0 : n = 0
    · rw [if_pos h0, if_pos h0]
    · rw [if_neg h0, if_neg h0]
      have hlen : ¬ 4 < (groups10000 n).length := by
        have := (groups10000_length_le_iff n).mpr hn
        omega
      rw [if_neg hlen]
      congr 1
      have hmem : ∀ p ∈ ((List.range (groups10000 n).length).zip (groups10000 n)).reverse,
          p.2 < 10000 := by
        intro p hp
        rw [List.mem_reverse] at hp
        exact groupsAux_mem_lt 10000 (by norm_num) n n p.2 (List.of_mem_zip hp).2
      have := chineseLoop_spec _ hmem [] false (by intro s hs; cases hs)
        (by intro hc; cases hc)
      simpa using this
  · rfl

/-- Witness for C3 at `n = 1000001`. -/
theorem c3_cross_group_rule_witness :
    _to_trad_chinese_upper 1000001 = .ok (ChineseExpandSpec 1000001) :=
  c3_cross_group_rule.1 1000001 (by norm_num)

/-! ## C2: precision handling -/

/-- C2 (counterexample to the claim as stated): `"1.230"` has three
digits after the decimal point, yet `_parse_amount` accepts it — Python
`Decimal("1.230")` equals its two-place quantization, so no
`PrecisionExceeded` error is raised. -/
theorem c2_three_decimals_accepted : _parse_amount "1.230" = .ok (1, 23) := by rfl

/-- C2 (amended): `_parse_amount` accepts an amount only when it exactly
equals its quantization to two decimal places — every accepted `(d, c)`
satisfies `value · 100 = 100·d + c` exactly, so a value-changing third
decimal digit is never silently rounded (`"1.234"` fails with the
precision error) — but a third decimal digit of zero is accepted
(`"1.230"` parses as `(1, 23)`). -/
theorem c2_no_silent_rounding :
    (∀ (s : String) (d c : Nat), _parse_amount s = .ok (d, c) →
      c < 100 ∧ ∃ v, decimalOfChars (removeCommas (pyStrip s)).data = some v ∧
        decValQ v * 100 = 100 * d + c) ∧
    _parse_amount "1.234" = .error (.badParameter "Amount can have at most 2 decimal places") ∧
    _parse_amount "1.230" = .ok (1, 23) := by
  refine ⟨?_, by rfl, by rfl⟩
  intro s d c h
  unfold _parse_amount at h
  dsimp only at h
  split at h
  · cases h
  · split at h
    · cases h
    · rename_i v heq
      unfold afterDecimal at h
      split at h
      · cases h
      · cases h
      · rename_i v' neg coeff exp
        split at h
        · cases h
        · rename_i hneg
          split at h
          · cases h
          · rename_i minor hquant
            split at h
            · cases h
            · rename_i hexact
              have hx : quantExact coeff exp = true := by
                cases hb : quantExact coeff exp with
                | false => exact absurd hb hexact
                | true => rfl
              have hrat := (quantExact_iff coeff exp minor hquant).mp hx
              have hval : decValQ (.finite neg coeff exp) =
                  (coeff : ℚ) * (10 : ℚ) ^ (exp : ℤ) := by
                cases neg with
                | false => simp [decValQ]
                | true =>
                  have hc0 : coeff = 0 := by
                    simp [decNeg] at hneg
                    exact hneg
                  subst hc0
                  simp [decValQ]
              have hdc : minor / 100 = d ∧ minor % 100 = c := by
                simp at h
                exact h
              refine ⟨?_, ⟨.finite neg coeff exp, heq, ?_⟩⟩
              · rw [← hdc.2]
                exact Nat.mod_lt _ (by norm_num)
              · rw [hval, hrat, ← hdc.1, ← hdc.2]
                have hsplit : (100 : ℚ) * ((minor / 100 : Nat) : ℚ) +
                    ((minor % 100 : Nat) : ℚ) = (minor : ℚ) := by
                  exact_mod_cast congrArg (fun n : Nat => (n : ℚ)) (Nat.div_add_mod minor 100)
                rw [hsplit]
                field_simp

/-- Witness for C2 at `s = "123.45"`. -/
theorem c2_no_silent_rounding_witness :
    45 < 100 ∧ ∃ v, decimalOfChars (removeCommas (pyStrip "123.45")).data = some v ∧
      decValQ v * 100 = 100 * 123 + 45 :=
  c2_no_silent_rounding.1 "123.45" 123 45 (by rfl)

/-! ## C5: the composer -/

/-- C5: with `subunit = 0` the Chinese line appends 元正 (exact marker);
a zero tens-of-cents digit with non-zero cents digit inserts exactly one
separator glyph; the English line appends the subunit words with singular
`cent` exactly for `subunit = 1` and plural `cents` otherwise; and the
four reference amounts render as in the tests. -/
theorem c5_composer_rules :
    (∀ d : Nat, _format_zh_amount d 0 =
      (_to_trad_chinese_upper d).map (fun t => t ++ "元正")) ∧
    (∀ c : Nat, c < 100 → c / 10 = 0 → c % 10 ≠ 0 →
      _to_zh_cents c = "零" ++ _DIGITS_UPPER (c % 10) ++ "分" ∧
        (_to_zh_cents c).data.count sepGlyph = 1) ∧
    (∀ dl c : Nat, 1 ≤ c → c ≤ 99 →
      _format_en_amount dl c = (_to_english_hk dl).map
        (fun t => t ++ " and " ++ _under_100_to_words c ++ " " ++
          (if c = 1 then "cent" else "cents"))) ∧
    _format_zh_amount 0 5 = .ok "零元零伍分" ∧
    _format_zh_amount 123 40 = .ok "壹佰貳拾叁元肆角" ∧
    _format_en_amount 123 45 = .ok "One hundred and twenty-three and forty-five cents" ∧
    _format_en_amount 1 1 = .ok "One and one cent" := by
  refine ⟨?_, ?_, ?_, by rfl, by rfl, by rfl, by rfl⟩
  · intro d
    cases h : _to_trad_chinese_upper d with
    | error e => simp [_format_zh_amount, h, Except.map]
    | ok t => simp [_format_zh_amount, h, Except.map]
  · decide
  · intro dl c h1 h99
    have hc0 : c ≠ 0 := by omega
    cases h : _to_english_hk dl with
    | error e => simp [_format_en_amount, h, Except.map]
    | ok t => simp [_format_en_amount, h, Except.map, hc0]

/-- Witness for C5 at `c = 5` and `(dollars, cents) = (2, 1)`. -/
theorem c5_composer_rules_witness :
    (_to_zh_cents 5 = "零" ++ _DIGITS_UPPER (5 % 10) ++ "分" ∧
      (_to_zh_cents 5).data.count sepGlyph = 1) ∧
    _format_en_amount 2 1 = (_to_english_hk 2).map
      (fun t => t ++ " and " ++ _under_100_to_words 1 ++ " " ++
        (if 1 = 1 then "cent" else "cents")) :=
  ⟨c5_composer_rules.2.1 5 (by norm_num) (by norm_num) (by norm_num),
   c5_composer_rules.2.2.1 2 1 (by norm_num) (by norm_num)⟩

/-! ## C4: the English cross-group "and" rule -/

theorem englishGroupLoop_snd (l : List (Nat × Nat)) :
    (englishGroupLoop l).2 = (l.map Prod.snd).filter (fun x => x != 0) := by
  induction l with
  | nil => rfl
  | cons p t ih =>
    obtain ⟨i, g⟩ := p
    by_cases hg : g = 0
    · subst hg
      simp [englishGroupLoop, ih]
    · simp [englishGroupLoop, hg, ih]

theorem englishGroupLoop_length (l : List (Nat × Nat)) :
    (englishGroupLoop l).1.length = (englishGroupLoop l).2.length := by
  induction l with
  | nil => rfl
  | cons p t ih =>
    obtain ⟨i, g⟩ := p
    by_cases hg : g = 0
    · simp [englishGroupLoop, hg, ih]
    · simp [englishGroupLoop, hg, ih]

theorem find?_eq_head_filter (p : Nat → Bool) (l : List Nat) :
    l.find? p = (l.filter p).head? := by
  induction l with
  | nil => rfl
  | cons a t ih =>
    cases hpa : p a with
    | true =>
      rw [List.find?_cons_of_pos t hpa, List.filter_cons_of_pos hpa]
      rfl
    | false =>
      rw [List.find?_cons_of_neg t (by rw [hpa]; exact Bool.false_ne_true),
        List.filter_cons_of_neg (by rw [hpa]; exact Bool.false_ne_true)]
      exact ih

theorem englishGroupPairs_map_snd (n : Nat) :
    (englishGroupPairs n).map Prod.snd = groups1000 n := by
  unfold englishGroupPairs
  apply List.map_snd_zip
  rw [List.length_range]

/-- C4: with two or more non-zero base-1000 groups, the lowest (last)
non-zero group's words are prefixed with `and ` when it is below 100 and
not when it is at least 100; and the amount `"2,000,001"` with 0 cents
yields `"Two million and one"` in English and `"貳佰萬零壹"` (exactly one
separator glyph) in Chinese. -/
theorem c4_english_and_rule :
    (∀ n g : Nat, 1 ≤ n → n < 10 ^ 15 →
      (groups1000 n).find? (fun x => x != 0) = some g →
      2 ≤ (groups1000 n).countP (fun x => x != 0) →
      (g < 100 →
        _to_english_hk n = .ok (capFirst (String.intercalate " "
          ((englishWordsParts n).dropLast ++
            ["and " ++ (englishWordsParts n).getLast?.getD ""])))) ∧
      (100 ≤ g →
        _to_english_hk n = .ok (capFirst (String.intercalate " " (englishWordsParts n))))) ∧
    _parse_amount "2,000,001" = .ok (2000001, 0) ∧
    _format_en_amount 2000001 0 = .ok "Two million and one" ∧
    _format_zh_amount 2000001 0 = .ok "貳佰萬零壹元正" ∧
    ("貳佰萬零壹" : String).data.count sepGlyph = 1 ∧
    _to_trad_chinese_upper 2000001 = .ok "貳佰萬零壹" := by
  refine ⟨?_, by rfl, by rfl, by rfl, by rfl, by rfl⟩
  intro n g h1 h15 hfind hcount
  have h0 : n ≠ 0 := by omega
  have hlen : ¬ 5 < (groups1000 n).length := by
    have := (groups1000_length_le_iff n).mpr h15
    omega
  have hnp : englishNumericParts n =
      ((groups1000 n).filter (fun x => x != 0)).reverse := by
    unfold englishNumericParts
    rw [englishGroupLoop_snd, englishGroupPairs_map_snd]
  have hlast : (englishNumericParts n).getLast? = some g := by
    rw [hnp, List.getLast?_reverse, ← find?_eq_head_filter]
    exact hfind
  have hwp : 1 < (englishWordsParts n).length := by
    unfold englishWordsParts
    rw [List.length_reverse, englishGroupLoop_length, englishGroupLoop_snd,
      englishGroupPairs_map_snd]
    rw [List.countP_eq_length_filter] at hcount
    omega
  unfold _to_english_hk
  rw [if_neg h0, if_neg hlen]
  dsimp only
  rw [hlast]
  constructor
  · intro hg
    rw [if_pos ⟨hwp, by simpa using hg⟩]
  · intro hg
    rw [if_neg (by
      intro hc
      have := hc.2
      simp at this
      omega)]

/-- Witness for C4 at `n = 2000001` (groups `[1, 0, 2]`, lowest non-zero
group 1 < 100). -/
theorem c4_english_and_rule_witness :
    _to_english_hk 2000001 = .ok (capFirst (String.intercalate " "
      ((englishWordsParts 2000001).dropLast ++
        ["and " ++ (englishWordsParts 2000001).getLast?.getD ""]))) :=
  ((c4_english_and_rule.1 2000001 1 (by norm_num) (by norm_num) (by rfl)
    (by rfl)).1 (by norm_num))

/-! ## C10: comma deletion -/

theorem trimLeft_cons_ws {c : Char} (h : isSpaceChar c = true) (t : List Char) :
    trimLeftChars (c :: t) = trimLeftChars t := by
  rw [trimLeftChars, trimLeftChars, List.dropWhile_cons, if_pos h]

theorem trimLeft_cons_not_ws {c : Char} (h : isSpaceChar c = false) (t : List Char) :
    trimLeftChars (c :: t) = c :: t := by
  rw [trimLeftChars, List.dropWhile_cons, if_neg (by rw [h]; exact Bool.false_ne_true)]

theorem rc_cons_comma (t : List Char) :
    removeCommasChars (',' :: t) = removeCommasChars t :=
  @List.filter_cons_of_neg Char (fun x => x != ',') ',' t (by decide)

theorem rc_cons_not_comma {c : Char} (h : (c != ',') = true) (t : List Char) :
    removeCommasChars (c :: t) = c :: removeCommasChars t :=
  @List.filter_cons_of_pos Char (fun x => x != ',') c t h

theorem trimLeft_ws_append {p : List Char} (hp : ∀ c ∈ p, isSpaceChar c = true)
    (x : List Char) : trimLeftChars (p ++ x) = trimLeftChars x := by
  induction p with
  | nil => rfl
  | cons c t ih =>
    rw [List.cons_append, trimLeft_cons_ws (hp c (List.mem_cons_self _ _))]
    exact ih (fun d hd => hp d (List.mem_cons_of_mem _ hd))

theorem comma_not_space : isSpaceChar ',' = false := by decide

theorem trimLeft_rc_trimLeft (l : List Char) :
    trimLeftChars (removeCommasChars (trimLeftChars l)) =
      trimLeftChars (removeCommasChars l) := by
  induction l with
  | nil => rfl
  | cons c t ih =>
    by_cases hws : isSpaceChar c = true
    · have hcc : (c != ',') = true := by
        cases hcv : c == ',' with
        | true =>
          exfalso
          have hc' : c = ',' := eq_of_beq hcv
          rw [hc', comma_not_space] at hws
          cases hws
        | false => simp [bne, hcv]
      rw [trimLeft_cons_ws hws, rc_cons_not_comma hcc, trimLeft_cons_ws hws]
      exact ih
    · have hwsf : isSpaceChar c = false := by
        cases hv : isSpaceChar c with
        | true => exact absurd hv hws
        | false => rfl
      by_cases hcm : c = ','
      · subst hcm
        rw [trimLeft_cons_not_ws hwsf, rc_cons_comma]
      · have hcc : (c != ',') = true := by
          cases hcv : c == ',' with
          | true => exact absurd (eq_of_beq hcv) hcm
          | false => simp [bne, hcv]
        rw [trimLeft_cons_not_ws hwsf]

theorem rc_reverse (l : List Char) :
    removeCommasChars l.reverse = (removeCommasChars l).reverse :=
  List.filter_reverse _ l

theorem trimRight_rc_trimRight (l : List Char) :
    trimRightChars (removeCommasChars (trimRightChars l)) =
      trimRightChars (removeCommasChars l) := by
  show (trimLeftChars (removeCommasChars (trimRightChars l)).reverse).reverse = _
  rw [← rc_reverse]
  rw [show (trimRightChars l).reverse = trimLeftChars l.reverse from by
    rw [trimRightChars, List.reverse_reverse]]
  rw [trimLeft_rc_trimLeft]
  show _ = (trimLeftChars (removeCommasChars l).reverse).reverse
  rw [← rc_reverse]

theorem trimLeft_trimRight_comm (z : List Char) :
    trimLeftChars (trimRightChars z) = trimRightChars (trimLeftChars z) := by
  by_cases hz : trimLeftChars z = []
  · have hall : ∀ c ∈ z, isSpaceChar c = true := List.dropWhile_eq_nil_iff.mp hz
    have hrev : trimLeftChars z.reverse = [] := List.dropWhile_eq_nil_iff.mpr
      (fun c hc => hall c (List.mem_reverse.mp hc))
    rw [hz]
    rw [show trimRightChars z = [] from by rw [trimRightChars, hrev]; rfl]
    rfl
  · have hhead : isSpaceChar ((trimLeftChars z).head hz) = false :=
      List.head_dropWhile_not isSpaceChar z hz
    have hmne : trimLeftChars (trimLeftChars z).reverse ≠ [] := by
      intro hc
      have hallm := List.dropWhile_eq_nil_iff.mp hc
      have hmem : (trimLeftChars z).head hz ∈ (trimLeftChars z).reverse :=
        List.mem_reverse.mpr (List.head_mem hz)
      have hws := hallm _ hmem
      rw [hhead] at hws
      exact Bool.false_ne_true hws
    have hsplit : z.reverse =
        (trimLeftChars z).reverse ++ (z.takeWhile isSpaceChar).reverse := by
      conv_lhs => rw [← List.takeWhile_append_dropWhile isSpaceChar z]
      rw [List.reverse_append]
      rfl
    have hTRz : trimRightChars z =
        z.takeWhile isSpaceChar ++ trimRightChars (trimLeftChars z) := by
      rw [trimRightChars, hsplit]
      rw [show trimLeftChars ((trimLeftChars z).reverse ++ (z.takeWhile isSpaceChar).reverse) =
          trimLeftChars (trimLeftChars z).reverse ++ (z.takeWhile isSpaceChar).reverse from by
        rw [trimLeftChars, List.dropWhile_append,
          if_neg (by rw [List.isEmpty_iff]; exact hmne)]
        rfl]
      rw [List.reverse_append, List.reverse_reverse]
      rfl
    rw [hTRz, trimLeft_ws_append (fun c hc => List.mem_takeWhile_imp hc)]
    exact trimLeft_prefix_fix (trimLeft_idem z) (trimRight_prefix_self (trimLeftChars z))

theorem strip_rc_strip (x : List Char) :
    stripChars (removeCommasChars (stripChars x)) = stripChars (removeCommasChars x) := by
  unfold stripChars
  rw [← trimLeft_trimRight_comm x]
  rw [trimLeft_rc_trimLeft (trimRightChars x)]
  rw [← trimLeft_trimRight_comm (removeCommasChars (trimRightChars x))]
  rw [trimRight_rc_trimRight x]
  rw [trimLeft_trimRight_comm]

theorem stripChars_subset {c : Char} {l : List Char} (h : c ∈ stripChars l) : c ∈ l := by
  unfold stripChars trimRightChars at h
  rw [List.mem_reverse] at h
  have h2 := (List.dropWhile_suffix isSpaceChar).subset h
  rw [List.mem_reverse] at h2
  exact (List.dropWhile_suffix isSpaceChar).subset h2

/-- The parser `_parse_amount` written over the character-list pipeline. -/
theorem parse_amount_chars (raw : String) :
    _parse_amount raw =
      (if removeCommasChars (stripChars raw.data) = [] then
        .error (.badParameter "Amount is required")
      else
        match decNumCore ((stripChars (removeCommasChars (stripChars raw.data))).filter
            (fun c => c != '_')) with
        | none => .error (.badParameter "Amount must be a non-negative number, e.g. 123 or 123.45")
        | some v => afterDecimal v) := by
  unfold _parse_amount
  dsimp only
  by_cases hc : removeCommasChars (stripChars raw.data) = []
  · rw [if_pos (show removeCommas (pyStrip raw) = "" from
      (string_data_eq_nil_iff (removeCommas (pyStrip raw))).mp hc), if_pos hc]
  · rw [if_neg (show ¬ removeCommas (pyStrip raw) = "" from fun he =>
      hc ((string_data_eq_nil_iff (removeCommas (pyStrip raw))).mpr he)), if_neg hc]
    rfl

/-- C10 (counterexample to the claim as stated): the input `", ,"` fails
with the invalid-format message (the commas shield an inner space from
`strip`, and `Decimal(" ")` is malformed), while its comma-deleted form
`" "` fails with the empty-amount message — the two runs do not fail the
same way. -/
theorem c10_commas_error_differs :
    _parse_amount ", ," =
      .error (.badParameter "Amount must be a non-negative number, e.g. 123 or 123.45") ∧
    _parse_amount (removeCommas ", ,") = .error (.badParameter "Amount is required") ∧
    _parse_amount ", ," ≠ _parse_amount (removeCommas ", ,") := by
  refine ⟨by rfl, by rfl, ?_⟩
  intro h
  rw [show _parse_amount ", ," = Except.error (ChequeErr.badParameter
    "Amount must be a non-negative number, e.g. 123 or 123.45") from by rfl] at h
  rw [show _parse_amount (removeCommas ", ,") =
    Except.error (ChequeErr.badParameter "Amount is required") from by rfl] at h
  injection h with h2
  injection h2 with h3
  exact absurd h3 (by decide)

/-- C10 (amended): for every input string, `_parse_amount` on the string
and on the string with every comma deleted succeed or fail together, and
on success return the same `(dollars, cents)` pair — comma placement is
never validated.  (The failure *messages* can differ only for strings
that are blank once commas are removed, as the counterexample shows.) -/
theorem c10_comma_deletion_equiv (s : String) :
    (_parse_amount s).toOption = (_parse_amount (removeCommas s)).toOption := by
  have hru : removeCommasChars (stripChars (removeCommasChars s.data)) =
      stripChars (removeCommasChars s.data) := by
    apply List.filter_eq_self.mpr
    intro c hc
    exact (List.mem_filter.mp (stripChars_subset hc)).2
  have hM := strip_rc_strip s.data
  rw [parse_amount_chars s, parse_amount_chars (removeCommas s)]
  rw [show (removeCommas s).data = removeCommasChars s.data from rfl]
  rw [hru]
  by_cases hA : removeCommasChars (stripChars s.data) = []
  · have hB : stripChars (removeCommasChars s.data) = [] := by
      rw [← hM, hA]
      rfl
    rw [if_pos hA, if_pos hB]
  · rw [if_neg hA]
    by_cases hB : stripChars (removeCommasChars s.data) = []
    · rw [if_pos hB, hM, hB]
      rfl
    · rw [if_neg hB, hM]
      rw [show stripChars (stripChars (removeCommasChars s.data)) =
        stripChars (removeCommasChars s.data) from strip_idem _]

/-! ## C9: output atomicity and the failure mode of the `cheque` command -/

/-- C9: output is atomic — every run either exits with an exception
having emitted nothing, or succeeds and emits exactly the two wording
lines.  But the "usage error on every invalid input" half of the claim
fails: on `"1e26"` the quantize step raises an uncaught
`decimal.InvalidOperation` (its result coefficient would need 29 > 28
digits), which is not a `typer.BadParameter` usage error — the
`_ensure_supported_range` message is never reached. -/
theorem c9_atomic_but_crash_on_huge :
    cheque "1e26" = ([], some ChequeErr.invalidOperation) ∧
    (∀ m : String, some ChequeErr.invalidOperation ≠ some (ChequeErr.badParameter m)) ∧
    (∀ v : String, ((cheque v).2 = none ∧ (cheque v).1.length = 2) ∨
      ((cheque v).2 ≠ none ∧ (cheque v).1 = [])) := by
  refine ⟨by rfl, ?_, ?_⟩
  · intro m h
    injection h with h2
    cases h2
  · intro v
    unfold cheque
    cases hp : _parse_amount v with
    | error e =>
      right
      exact ⟨(by intro hc; cases hc), rfl⟩
    | ok dc =>
      dsimp only
      cases he : _ensure_supported_range dc.1 with
      | error e =>
        right
        exact ⟨(by intro hc; cases hc), rfl⟩
      | ok u =>
        dsimp only
        cases hz : _format_zh_amount dc.1 dc.2 with
        | error m =>
          right
          exact ⟨(by intro hc; cases hc), rfl⟩
        | ok zh =>
          dsimp only
          cases hen : _format_en_amount dc.1 dc.2 with
          | error m =>
            right
            exact ⟨(by intro hc; cases hc), rfl⟩
          | ok en =>
            left
            exact ⟨rfl, rfl⟩
